import Mathlib

/-!
A shallow embedding of the `walk` repository's `IniFileSettings` key/value
store (`inifilesettings.go`) and of `ToolTip.RemoveWidget` (`tooltip.go`),
with theorems checking the natural-language specification against the code.

Strings are modelled as Lean `String` (a wrapper around `List Char`); the
Go byte-level operations used by the store (`strings.Index` on `"="`,
`strings.IndexAny`, `bufio.Reader.ReadLine`, `strings.TrimSpace`) act on
ASCII separators, so character-level modelling is faithful.
-/

namespace Walk

/-- The error kinds surfaced by the store, as named by its specification:
`newError("either key or value contains ...")` in `Put` is `invalidFormat`,
`newError("bad line format: missing '='")` in `Load` is `parseError`, and
`wrapError(err)` around filesystem failures is `ioError`. -/
inductive SettingsError where
  | invalidFormat
  | parseError
  | ioError
deriving DecidableEq, Repr

/-- The in-memory state of `IniFileSettings`: the Go `map[string]string`
`data` field, modelled as an association list with unique keys.  A Go map
iterates in an unspecified order, so a given map is represented by any
list ordering of its entries; theorems about `Save` quantify over the
representing list. -/
abbrev Store := List (String × String)

/-- Go `data[key]` lookup (comma-ok form reconstructed by `Get`). -/
def storeGet (m : Store) (k : String) : Option String :=
  (m.find? (fun p => p.1 == k)).map Prod.snd

/-- Go `data[key] = val`: overwrite the entry if the key is present,
otherwise append a new entry. -/
def storePut (m : Store) (k : String) (v : String) : Store :=
  if m.any (fun p => p.1 == k) then
    m.map (fun p => if p.1 == k then (p.1, v) else p)
  else
    m ++ [(k, v)]

/-- Model of `IniFileSettings.Get`: `val, ok := ifs.data[key]; return val, ok`.
A missing key yields Go's zero value `""` with `ok = false`. -/
def Get (m : Store) (key : String) : String × Bool :=
  match storeGet m key with
  | some v => (v, true)
  | none => ("", false)

/-- Model of `strings.IndexAny(s, chars) > -1`: does `s` contain any
character of `chars`? -/
def indexAnyFound (s : String) (chars : List Char) : Bool :=
  s.toList.any (fun c => chars.contains c)

/-- Model of `IniFileSettings.Put`: reject a key containing `=`, CR or LF
or a value containing CR or LF, otherwise store the pair. -/
def Put (m : Store) (key value : String) : Except SettingsError Store :=
  if indexAnyFound key ['=', '\r', '\n'] || indexAnyFound value ['\r', '\n'] then
    Except.error SettingsError.invalidFormat
  else
    Except.ok (storePut m key value)

/-- Model of `strings.Index(s, "=")` followed by the two slices
`lineStr[:assignIndex]` and `lineStr[assignIndex+1:]`: split at the first
`'='`, or `none` when there is no `'='` (`assignIndex == -1`). -/
def splitFirstEq : List Char → Option (List Char × List Char)
  | [] => none
  | c :: rest =>
    if c = '=' then some ([], rest)
    else
      match splitFirstEq rest with
      | none => none
      | some (pre, post) => some (c :: pre, post)

/-- The character set of Go's `unicode.IsSpace`: the Latin-1 cases
(`'\t'`, `'\n'`, `'\v'`, `'\f'`, `'\r'`, `' '`, U+0085, U+00A0) together
with the Unicode White_Space runes U+1680, U+2000..U+200A, U+2028, U+2029,
U+202F, U+205F and U+3000. -/
def isGoSpace (c : Char) : Bool :=
  c = '\t' || c = '\n' || c = '\x0b' || c = '\x0c' || c = '\r' || c = ' ' ||
  c = '\x85' || c = '\xa0' || c = '\u1680' ||
  c = '\u2000' || c = '\u2001' || c = '\u2002' || c = '\u2003' ||
  c = '\u2004' || c = '\u2005' || c = '\u2006' || c = '\u2007' ||
  c = '\u2008' || c = '\u2009' || c = '\u200A' ||
  c = '\u2028' || c = '\u2029' || c = '\u202F' || c = '\u205F' || c = '\u3000'

/-- Model of `strings.TrimSpace` on the character list: drop leading and
trailing whitespace. -/
def trimChars (cs : List Char) : List Char :=
  ((cs.dropWhile isGoSpace).reverse.dropWhile isGoSpace).reverse

/-- Model of `strings.TrimSpace` on strings. -/
def trimSpace (s : String) : String :=
  String.mk (trimChars s.toList)

/-- One iteration of the `Load` line loop, lines 116-125 of the source:
`strings.Index(lineStr, "=")`; error when absent, otherwise trim the parts
around the first `'='`. -/
def parseLine (line : String) : Option (String × String) :=
  match splitFirstEq line.toList with
  | none => none
  | some (pre, post) => some (String.mk (trimChars pre), String.mk (trimChars post))

/-- In `bufio.Reader.ReadLine`, the terminator `"\n"` or `"\r\n"` is
stripped; a lone trailing `'\r'` (not followed by `'\n'`) is kept. -/
def stripCR (cs : List Char) : List Char :=
  if cs.getLast? = some '\r' then cs.dropLast else cs

/-- Split a character stream at every `'\n'` (the segments a sequence of
`ReadSlice('\n')` calls would produce, terminators included conceptually;
the final segment is the data after the last `'\n'`). -/
def splitNl : List Char → List (List Char)
  | [] => [[]]
  | c :: rest =>
    if c = '\n' then [] :: splitNl rest
    else
      match splitNl rest with
      | [] => [[c]]
      | seg :: segs => (c :: seg) :: segs

/-- Turn the `'\n'`-separated segments into the lines the `ReadLine` loop
of `Load` sees: every segment followed by a `'\n'` has a trailing `'\r'`
stripped; the final segment is a line only if non-empty (an empty final
segment is the immediate `os.EOF` after a terminated last line or an empty
file). -/
def readLinesAux : List (List Char) → List String
  | [] => []
  | [seg] => if seg = [] then [] else [String.mk seg]
  | seg :: rest => String.mk (stripCR seg) :: readLinesAux rest

/-- The sequence of lines `Load`'s reader loop obtains from a file's
content. -/
def readLines (content : String) : List String :=
  readLinesAux (splitNl content.toList)

/-- The line loop of `Load` (lines 97-126): parse each line in order,
inserting into the store as it goes; stop with `parseError` at the first
line without `'='`, returning the store as mutated so far (the Go code
updates `ifs.data` in place). -/
def loadLines (m : Store) : List String → Except SettingsError Unit × Store
  | [] => (Except.ok (), m)
  | line :: rest =>
    match parseLine line with
    | none => (Except.error SettingsError.parseError, m)
    | some (k, v) => loadLines (storePut m k v) rest

/-- The filesystem as `Load` observes it through `os.Stat` and
`os.OpenFile`:
* `absent`: `os.Stat` fails because the file does not exist;
* `statError`: `os.Stat` fails for another reason (e.g. permissions) —
  the code's `fileExists` returns `(false, nil)` for every `Stat` failure
  (the `FIXME` on line 59 of the source);
* `openError`: `os.Stat` succeeds but `os.OpenFile` fails;
* `present content`: the file opens and reads fully as `content`. -/
inductive FsState where
  | absent
  | statError
  | openError
  | present (content : String)

/-- Model of `IniFileSettings.fileExists`: any `os.Stat` failure —
including one that is not a does-not-exist error — yields `(false, nil)`. -/
def fileExists : FsState → Bool × Option SettingsError
  | FsState.absent => (false, none)
  | FsState.statError => (false, none)
  | FsState.openError => (true, none)
  | FsState.present _ => (true, none)

/-- Model of `IniFileSettings.Load`: return early with success when
`fileExists` reports `false`; fail with an I/O error when the file cannot
be opened; otherwise run the line loop.  The pair is (returned result,
`ifs.data` after the call). -/
def Load (fs : FsState) (m : Store) : Except SettingsError Unit × Store :=
  match fileExists fs with
  | (_, some e) => (Except.error e, m)
  | (false, none) => (Except.ok (), m)
  | (true, none) =>
    match fs with
    | FsState.present content => loadLines m (readLines content)
    | _ => (Except.error SettingsError.ioError, m)

/-- The characters `Save`'s loop writes: `fmt.Sprintf("%s=%s\n", key, val)`
for each entry in iteration order. -/
def saveChars : Store → List Char
  | [] => []
  | p :: rest => (p.1.toList ++ '=' :: p.2.toList) ++ '\n' :: saveChars rest

/-- `IniFileSettings.Save`'s file content (the store's entries, one
`key=value` line each, in the represented iteration order). -/
def saveContent (m : Store) : String :=
  String.mk (saveChars m)

/-- The store as left by the `Load` loop after processing a list of lines
without stopping: each line's parsed entry inserted in order (lines that
would not parse insert nothing). -/
def applyParsedLines (m : Store) (ls : List String) : Store :=
  ls.foldl
    (fun m l =>
      match parseLine l with
      | some (k, v) => storePut m k v
      | none => m)
    m

/-- An abstract widget handle (the source only uses `widget.BaseWidget().hWnd`). -/
structure Widget where
  hWnd : Nat

/-- The outcome of a Go call that may `panic`: a panicking call never
returns a value to its caller. -/
inductive GoOutcome (α : Type) where
  | ok (a : α)
  | panic (msg : String)
deriving DecidableEq, Repr

namespace ToolTip

/-- Model of `ToolTip.AddWidget`, abstracted over the native layer:
`addToolResult` is what `SendMessage(tt.hWnd, TTM_ADDTOOL, ...)` returns,
with `FALSE` (zero) meaning failure (`newError("TTM_ADDTOOL failed")`); a
Go `error` result is `some message`, a `nil` error is `none`. -/
def AddWidget (addToolResult : Nat) (_widget : Widget) : GoOutcome (Option String) :=
  if addToolResult = 0 then GoOutcome.ok (some "TTM_ADDTOOL failed")
  else GoOutcome.ok none

/-- Model of `ToolTip.RemoveWidget`: the body is exactly
`panic("not implemented")`. -/
def RemoveWidget (_widget : Widget) : GoOutcome (Option String) :=
  GoOutcome.panic "not implemented"

end ToolTip

/-- The store operations of the public interface (`Get` and `Save` do not
change the in-memory state; `Load`'s filesystem observation is the `FsState`
argument). -/
inductive Op where
  | get (k : String)
  | put (k v : String)
  | load (fs : FsState)
  | save

/-- The store state after one operation: `Put` mutates only on success,
`Load` leaves whatever the call (successful or not) left in `ifs.data`. -/
def applyOp (m : Store) : Op → Store
  | Op.get _ => m
  | Op.put k v =>
    match Put m k v with
    | Except.ok m' => m'
    | Except.error _ => m
  | Op.load fs => (Load fs m).2
  | Op.save => m

/-- The store state reached from a fresh `NewIniFileSettings()` (empty map)
by a sequence of operations. -/
def runOps (ops : List Op) : Store :=
  ops.foldl applyOp []

/-- The part of the spec's store invariant that the code actually
maintains: no key or value contains LF, and no key contains `=`.  (CR is
deliberately absent: `Load` can introduce an interior CR into keys and
values, refuting the spec's stronger invariant.) -/
def goodEntry (p : String × String) : Prop :=
  '\n' ∉ p.1.toList ∧ '=' ∉ p.1.toList ∧ '\n' ∉ p.2.toList

/-! ## Helper lemmas about characters, lines and splitting -/

theorem toList_mk (cs : List Char) : (String.mk cs).toList = cs := rfl

theorem splitFirstEq_append (a b : List Char) (ha : '=' ∉ a) :
    splitFirstEq (a ++ '=' :: b) = some (a, b) := by
  induction a with
  | nil => simp [splitFirstEq]
  | cons c cs ih =>
    have hc : ¬ c = '=' := fun e => ha (by simp [e])
    have hcs : '=' ∉ cs := fun e => ha (List.mem_cons_of_mem _ e)
    simp [splitFirstEq, hc, ih hcs]

theorem splitFirstEq_of_not_mem {cs : List Char} (h : '=' ∉ cs) :
    splitFirstEq cs = none := by
  induction cs with
  | nil => rfl
  | cons c rest ih =>
    have hc : ¬ c = '=' := fun e => h (by simp [e])
    have hr : '=' ∉ rest := fun e => h (List.mem_cons_of_mem _ e)
    simp [splitFirstEq, hc, ih hr]

theorem splitFirstEq_ne_none {cs : List Char} (h : '=' ∈ cs) :
    ¬ splitFirstEq cs = none := by
  induction cs with
  | nil => cases h
  | cons c rest ih =>
    by_cases hc : c = '='
    · simp [splitFirstEq, hc]
    · have hr : '=' ∈ rest := by
        rcases List.mem_cons.mp h with h1 | h2
        · exact absurd h1.symm hc
        · exact h2
      cases hsp : splitFirstEq rest with
      | none => exact absurd hsp (ih hr)
      | some pr => simp [splitFirstEq, hc, hsp]

theorem splitFirstEq_eq_some {cs pre post : List Char}
    (h : splitFirstEq cs = some (pre, post)) :
    '=' ∉ pre ∧ cs = pre ++ '=' :: post := by
  induction cs generalizing pre post with
  | nil => cases h
  | cons c rest ih =>
    by_cases hc : c = '='
    · simp only [splitFirstEq, if_pos hc, Option.some.injEq, Prod.mk.injEq] at h
      obtain ⟨h1, h2⟩ := h
      subst h1; subst h2; subst hc
      simp
    · cases hsp : splitFirstEq rest with
      | none => simp [splitFirstEq, hc, hsp] at h
      | some pr =>
        obtain ⟨p1, p2⟩ := pr
        simp only [splitFirstEq, if_neg hc, hsp, Option.some.injEq, Prod.mk.injEq] at h
        obtain ⟨h1, h2⟩ := h
        obtain ⟨hmem, heq⟩ := ih hsp
        subst h1; subst h2
        constructor
        · intro hx
          rcases List.mem_cons.mp hx with e | e
          · exact hc e.symm
          · exact hmem e
        · rw [List.cons_append, heq]

theorem splitNl_ne_nil (cs : List Char) : ¬ splitNl cs = [] := by
  induction cs with
  | nil => simp [splitNl]
  | cons c rest ih =>
    by_cases hc : c = '\n'
    · simp [splitNl, hc]
    · cases h : splitNl rest with
      | nil => exact absurd h ih
      | cons s segs => simp [splitNl, hc, h]

theorem splitNl_append {a : List Char} (r : List Char) (ha : '\n' ∉ a) :
    splitNl (a ++ '\n' :: r) = a :: splitNl r := by
  induction a with
  | nil => simp [splitNl]
  | cons c cs ih =>
    have hc : ¬ c = '\n' := fun e => ha (by simp [e])
    have hcs : '\n' ∉ cs := fun e => ha (List.mem_cons_of_mem _ e)
    rw [List.cons_append]
    cases h : splitNl (cs ++ '\n' :: r) with
    | nil => exact absurd h (splitNl_ne_nil _)
    | cons s segs =>
      have h2 : s :: segs = cs :: splitNl r := by rw [← h, ih hcs]
      simp only [splitNl, if_neg hc, h]
      injection h2 with h3 h4
      rw [h3, h4]

theorem mem_splitNl {cs seg : List Char} (h : seg ∈ splitNl cs) :
    '\n' ∉ seg ∧ ∀ x ∈ seg, x ∈ cs := by
  induction cs generalizing seg with
  | nil =>
    simp [splitNl] at h
    subst h; simp
  | cons c rest ih =>
    by_cases hc : c = '\n'
    · rw [splitNl, if_pos hc] at h
      rcases List.mem_cons.mp h with h1 | h2
      · subst h1; simp
      · obtain ⟨hn, hsub⟩ := ih h2
        exact ⟨hn, fun x hx => List.mem_cons_of_mem _ (hsub x hx)⟩
    · cases hsp : splitNl rest with
      | nil => exact absurd hsp (splitNl_ne_nil rest)
      | cons s segs =>
        rw [splitNl, if_neg hc, hsp] at h
        rcases List.mem_cons.mp h with h1 | h2
        · subst h1
          obtain ⟨hn, hsub⟩ := @ih s (by rw [hsp]; exact List.mem_cons_self _ _)
          constructor
          · intro hx
            rcases List.mem_cons.mp hx with e | e
            · exact hc e.symm
            · exact hn e
          · intro x hx
            rcases List.mem_cons.mp hx with e | e
            · simp [e]
            · exact List.mem_cons_of_mem _ (hsub x e)
        · obtain ⟨hn, hsub⟩ :=
            @ih seg (by rw [hsp]; exact List.mem_cons_of_mem _ h2)
          exact ⟨hn, fun x hx => List.mem_cons_of_mem _ (hsub x hx)⟩

theorem stripCR_subset {cs : List Char} {x : Char} (h : x ∈ stripCR cs) : x ∈ cs := by
  unfold stripCR at h
  split at h
  · exact List.mem_of_mem_dropLast h
  · exact h

theorem stripCR_of_not_mem {cs : List Char} (h : '\r' ∉ cs) : stripCR cs = cs := by
  unfold stripCR
  split
  · next heq => exact absurd (List.mem_of_getLast?_eq_some heq) h
  · rfl

theorem trimChars_subset {cs : List Char} {x : Char} (h : x ∈ trimChars cs) : x ∈ cs := by
  unfold trimChars at h
  rw [List.mem_reverse] at h
  have h1 := List.dropWhile_subset isGoSpace h
  rw [List.mem_reverse] at h1
  exact List.dropWhile_subset isGoSpace h1

theorem mem_readLinesAux {segs : List (List Char)} {l : String}
    (h : l ∈ readLinesAux segs) :
    ∃ seg ∈ segs, l.toList = stripCR seg ∨ l.toList = seg := by
  induction segs with
  | nil => cases h
  | cons s rest ih =>
    cases rest with
    | nil =>
      by_cases hs : s = []
      · simp [readLinesAux, hs] at h
      · simp only [readLinesAux, if_neg hs, List.mem_singleton] at h
        exact ⟨s, by simp, Or.inr (by rw [h]; rfl)⟩
    | cons s2 rest2 =>
      simp only [readLinesAux] at h
      rcases List.mem_cons.mp h with h1 | h2
      · exact ⟨s, by simp, Or.inl (by rw [h1]; rfl)⟩
      · obtain ⟨seg, hseg, hor⟩ := ih h2
        exact ⟨seg, List.mem_cons_of_mem _ hseg, hor⟩

theorem mem_readLines {content l : String} (h : l ∈ readLines content) :
    '\n' ∉ l.toList ∧ ∀ x ∈ l.toList, x ∈ content.toList := by
  obtain ⟨seg, hseg, hor⟩ := mem_readLinesAux h
  obtain ⟨hn, hsub⟩ := mem_splitNl hseg
  rcases hor with he | he
  · rw [he]
    exact ⟨fun hx => hn (stripCR_subset hx), fun x hx => hsub x (stripCR_subset hx)⟩
  · rw [he]
    exact ⟨hn, hsub⟩

theorem readLines_cons {a : List Char} (r : List Char) (ha : '\n' ∉ a) :
    readLines (String.mk (a ++ '\n' :: r))
      = String.mk (stripCR a) :: readLines (String.mk r) := by
  unfold readLines
  rw [toList_mk, toList_mk, splitNl_append r ha]
  cases h : splitNl r with
  | nil => exact absurd h (splitNl_ne_nil r)
  | cons s segs => simp [readLinesAux]

/-! ## Helper lemmas about the store map -/

theorem storePut_cons {p : String × String} {t : Store} {k : String} (v : String)
    (h : ¬ p.1 = k) : storePut (p :: t) k v = p :: storePut t k v := by
  by_cases ht : t.any (fun q => q.1 == k) <;>
    simp [storePut, h, ht]

theorem storeGet_storePut_self (m : Store) (k v : String) :
    storeGet (storePut m k v) k = some v := by
  induction m with
  | nil => simp [storePut, storeGet]
  | cons p t ih =>
    by_cases hp : p.1 = k
    · simp [storePut, storeGet, hp]
    · rw [storePut_cons v hp]
      simp only [storeGet] at ih ⊢
      rw [List.find?_cons_of_neg _ (by simp [hp])]
      exact ih

theorem storePut_of_forall_ne {m : Store} {k : String} (v : String)
    (h : ∀ p ∈ m, ¬ p.1 = k) : storePut m k v = m ++ [(k, v)] := by
  have : m.any (fun q => q.1 == k) = false := by
    simp only [List.any_eq_false]
    intro p hp
    simpa using h p hp
  simp [storePut, this]

/-! ## Helper lemmas about parsing and the Load loop -/

theorem parseLine_eq_none_iff {l : String} : parseLine l = none ↔ '=' ∉ l.toList := by
  constructor
  · intro h hmem
    unfold parseLine at h
    cases hsp : splitFirstEq l.toList with
    | none => exact splitFirstEq_ne_none hmem hsp
    | some pr =>
      obtain ⟨pre, post⟩ := pr
      rw [hsp] at h
      simp at h
  · intro h
    unfold parseLine
    rw [splitFirstEq_of_not_mem h]

theorem load_present (content : String) (m : Store) :
    Load (FsState.present content) m = loadLines m (readLines content) := rfl

theorem loadLines_parseError_iff (ls : List String) (m : Store) :
    (loadLines m ls).1 = Except.error SettingsError.parseError
      ↔ ∃ l ∈ ls, '=' ∉ l.toList := by
  induction ls generalizing m with
  | nil => simp [loadLines]
  | cons l rest ih =>
    cases hp : parseLine l with
    | none =>
      have hl : '=' ∉ l.toList := parseLine_eq_none_iff.mp hp
      simp only [loadLines, hp]
      constructor
      · intro _
        exact ⟨l, List.mem_cons_self _ _, hl⟩
      · intro _
        trivial
    | some kv =>
      obtain ⟨k, v⟩ := kv
      have hl : '=' ∈ l.toList := by
        by_contra hne
        rw [parseLine_eq_none_iff.mpr hne] at hp
        cases hp
      simp only [loadLines, hp]
      rw [ih]
      constructor
      · rintro ⟨x, hx, hxe⟩
        exact ⟨x, List.mem_cons_of_mem _ hx, hxe⟩
      · rintro ⟨x, hx, hxe⟩
        rcases List.mem_cons.mp hx with e | e
        · subst e; exact absurd hl hxe
        · exact ⟨x, e, hxe⟩

theorem loadLines_ok (ls : List String) (m : Store)
    (h : ∀ l ∈ ls, '=' ∈ l.toList) :
    ∃ m', loadLines m ls = (Except.ok (), m') := by
  induction ls generalizing m with
  | nil => exact ⟨m, rfl⟩
  | cons l rest ih =>
    cases hp : parseLine l with
    | none =>
      exact absurd (h l (List.mem_cons_self _ _)) (parseLine_eq_none_iff.mp hp)
    | some kv =>
      obtain ⟨k, v⟩ := kv
      simp only [loadLines, hp]
      exact ih (storePut m k v) (fun x hx => h x (List.mem_cons_of_mem _ hx))

/-! ## Claims about Put and Get -/

/-- C1: for every key containing none of `=`, CR, LF and every value
containing neither CR nor LF, `Put(key, value)` on any store succeeds, and
an immediately following `Get(key)` on that store returns that value with
`found = true`. -/
theorem put_then_get (m : Store) (key value : String)
    (hk : indexAnyFound key ['=', '\r', '\n'] = false)
    (hv : indexAnyFound value ['\r', '\n'] = false) :
    ∃ m', Put m key value = Except.ok m' ∧ Get m' key = (value, true) := by
  refine ⟨storePut m key value, ?_, ?_⟩
  · simp [Put, hk, hv]
  · simp [Get, storeGet_storePut_self]

theorem put_then_get_witness :
    ∃ m', Put [] "name" "walk" = Except.ok m' ∧ Get m' "name" = ("walk", true) :=
  put_then_get [] "name" "walk" (by decide) (by decide)

/-- C2: `Put(key, value)` fails with `InvalidFormat` exactly when the key
contains any of `=`, CR, LF or the value contains CR or LF; in all other
cases it succeeds (storing the pair), and it has no other failure mode. -/
theorem put_invalidFormat_iff (m : Store) (key value : String) :
    (Put m key value = Except.error SettingsError.invalidFormat
      ↔ (indexAnyFound key ['=', '\r', '\n'] || indexAnyFound value ['\r', '\n']) = true)
    ∧ (∀ e, Put m key value = Except.error e → e = SettingsError.invalidFormat)
    ∧ ((indexAnyFound key ['=', '\r', '\n'] || indexAnyFound value ['\r', '\n']) = false
        → Put m key value = Except.ok (storePut m key value)) := by
  by_cases h : (indexAnyFound key ['=', '\r', '\n'] || indexAnyFound value ['\r', '\n']) = true
  · refine ⟨by simp [Put, h], fun e he => ?_, by simp [h]⟩
    simp [Put, h] at he
    exact he.symm
  · simp only [Bool.not_eq_true] at h
    refine ⟨by simp [Put, h], fun e he => ?_, fun _ => by simp [Put, h]⟩
    simp [Put, h] at he

theorem put_invalidFormat_iff_witness :
    Put [] "a=b" "x" = Except.error SettingsError.invalidFormat :=
  (put_invalidFormat_iff [] "a=b" "x").1.mpr (by decide)

/-! ## Claims about Load's filesystem handling -/

/-- C7: if the backing file does not exist, `Load()` returns success and
leaves the store's mapping exactly as it was before the call. -/
theorem load_absent (m : Store) : Load FsState.absent m = (Except.ok (), m) := rfl

/-- C8 evaluation: when `os.Stat` fails for a reason other than
non-existence (`FsState.statError`, e.g. a permissions error on a present
file), `Load` returns success with the store unchanged instead of an
`IOError` — `fileExists` swallows every `Stat` failure, as the `FIXME`
comment in the source admits.  An `os.OpenFile` failure, by contrast, is
surfaced as an I/O error. -/
theorem load_statError_swallowed :
    Load FsState.statError [("k", "v")] = (Except.ok (), [("k", "v")])
    ∧ Load FsState.openError [("k", "v")]
        = (Except.error SettingsError.ioError, [("k", "v")]) :=
  ⟨rfl, rfl⟩

/-! ## Helper lemmas for the Save/Load round trip -/

theorem not_mem_of_indexAnyFound {s : String} {chars : List Char} {c : Char}
    (h : indexAnyFound s chars = false) (hc : c ∈ chars) : c ∉ s.toList := by
  intro hmem
  simp only [indexAnyFound, List.any_eq_false] at h
  exact h c hmem (by simpa using hc)

theorem readLines_saveContent :
    ∀ m : Store,
      (∀ p ∈ m, indexAnyFound p.1 ['=', '\r', '\n'] = false
                ∧ indexAnyFound p.2 ['\r', '\n'] = false) →
      readLines (saveContent m)
        = m.map (fun p => String.mk (p.1.toList ++ '=' :: p.2.toList)) := by
  intro m
  induction m with
  | nil => intro _; rfl
  | cons p t ih =>
    intro h
    obtain ⟨hk, hv⟩ := h p (List.mem_cons_self _ _)
    have hknl : '\n' ∉ p.1.toList := not_mem_of_indexAnyFound hk (by simp)
    have hkcr : '\r' ∉ p.1.toList := not_mem_of_indexAnyFound hk (by simp)
    have hvnl : '\n' ∉ p.2.toList := not_mem_of_indexAnyFound hv (by simp)
    have hvcr : '\r' ∉ p.2.toList := not_mem_of_indexAnyFound hv (by simp)
    have hnl : '\n' ∉ p.1.toList ++ '=' :: p.2.toList := by
      intro hx
      rcases List.mem_append.mp hx with e | e
      · exact hknl e
      · rcases List.mem_cons.mp e with e2 | e2
        · exact absurd e2 (by decide)
        · exact hvnl e2
    have hcr : '\r' ∉ p.1.toList ++ '=' :: p.2.toList := by
      intro hx
      rcases List.mem_append.mp hx with e | e
      · exact hkcr e
      · rcases List.mem_cons.mp e with e2 | e2
        · exact absurd e2 (by decide)
        · exact hvcr e2
    show readLines (String.mk ((p.1.toList ++ '=' :: p.2.toList) ++ '\n' :: saveChars t)) = _
    rw [readLines_cons _ hnl, stripCR_of_not_mem hcr]
    rw [show String.mk (saveChars t) = saveContent t from rfl]
    rw [ih (fun q hq => h q (List.mem_cons_of_mem _ hq))]
    rfl

theorem parseLine_keyValue {k v : String}
    (hk : indexAnyFound k ['=', '\r', '\n'] = false)
    (htk : trimSpace k = k) (htv : trimSpace v = v) :
    parseLine (String.mk (k.toList ++ '=' :: v.toList)) = some (k, v) := by
  have hke : '=' ∉ k.toList := not_mem_of_indexAnyFound hk (by simp)
  unfold parseLine
  rw [toList_mk, splitFirstEq_append _ _ hke]
  have e1 : String.mk (trimChars k.toList) = k := htk
  have e2 : String.mk (trimChars v.toList) = v := htv
  show some (String.mk (trimChars k.toList), String.mk (trimChars v.toList)) = some (k, v)
  rw [e1, e2]

theorem loadLines_saveLines :
    ∀ m : Store, ∀ s : Store,
      (∀ p ∈ m, parseLine (String.mk (p.1.toList ++ '=' :: p.2.toList)) = some (p.1, p.2)) →
      loadLines s (m.map (fun p => String.mk (p.1.toList ++ '=' :: p.2.toList)))
        = (Except.ok (), m.foldl (fun acc p => storePut acc p.1 p.2) s) := by
  intro m
  induction m with
  | nil => intro s _; rfl
  | cons p t ih =>
    intro s h
    simp only [List.map_cons, loadLines, h p (List.mem_cons_self _ _), List.foldl_cons]
    exact ih (storePut s p.1 p.2) (fun q hq => h q (List.mem_cons_of_mem _ hq))

theorem foldl_storePut_append :
    ∀ m : Store, ∀ s : Store,
      (m.map Prod.fst).Nodup →
      (∀ p ∈ m, ∀ q ∈ s, ¬ q.1 = p.1) →
      m.foldl (fun acc p => storePut acc p.1 p.2) s = s ++ m := by
  intro m
  induction m with
  | nil => intro s _ _; simp
  | cons p t ih =>
    intro s hnodup hdisj
    have hnodup' := hnodup
    rw [List.map_cons, List.nodup_cons] at hnodup'
    obtain ⟨hp1, hnt⟩ := hnodup'
    rw [List.foldl_cons]
    rw [storePut_of_forall_ne p.2 (fun q hq => hdisj p (List.mem_cons_self _ _) q hq)]
    rw [ih (s ++ [p]) hnt ?_]
    · simp
    · intro x hx y hy
      rcases List.mem_append.mp hy with e | e
      · exact hdisj x (List.mem_cons_of_mem _ hx) y e
      · have hyp : y = p := by simpa using e
        subst hyp
        intro hye
        exact hp1 (hye ▸ List.mem_map_of_mem Prod.fst hx)

/-- C3: for every store whose keys and values are valid (no `=`/CR/LF in
keys, no CR/LF in values) and carry no leading or trailing whitespace,
calling `Save()` and then `Load()` on a freshly created empty store yields
a mapping equal to the original, independent of entry order (the theorem
holds for every list representation of the map, hence for every iteration
order `Save` may use). -/
theorem save_then_load_roundtrip (m : Store)
    (hnodup : (m.map Prod.fst).Nodup)
    (hvalid : ∀ p ∈ m,
      indexAnyFound p.1 ['=', '\r', '\n'] = false
      ∧ indexAnyFound p.2 ['\r', '\n'] = false
      ∧ trimSpace p.1 = p.1 ∧ trimSpace p.2 = p.2) :
    ∃ m', Load (FsState.present (saveContent m)) [] = (Except.ok (), m')
          ∧ ∀ k, storeGet m' k = storeGet m k := by
  refine ⟨m, ?_, fun k => rfl⟩
  rw [load_present]
  rw [readLines_saveContent m (fun p hp => ⟨(hvalid p hp).1, (hvalid p hp).2.1⟩)]
  rw [loadLines_saveLines m [] (fun p hp =>
    parseLine_keyValue (hvalid p hp).1 (hvalid p hp).2.2.1 (hvalid p hp).2.2.2)]
  rw [foldl_storePut_append m [] hnodup (fun p _ q hq => absurd hq (List.not_mem_nil q))]
  rw [List.nil_append]

theorem save_then_load_roundtrip_witness :
    ∃ m', Load (FsState.present (saveContent [("name", "walk"), ("version", "1.0")])) []
            = (Except.ok (), m')
          ∧ ∀ k, storeGet m' k = storeGet [("name", "walk"), ("version", "1.0")] k :=
  save_then_load_roundtrip [("name", "walk"), ("version", "1.0")] (by decide) (by decide)

/-! ## Claims about Load's line parsing -/

/-- C4: for every line processed by `Load()` that contains at least one
`=`, the first `=` on the line is the separator: the stored key is the
substring before it with surrounding whitespace stripped, the stored value
the substring after it with surrounding whitespace stripped, so a value
containing further `=` characters is loaded verbatim (here `b` is
arbitrary and may contain `=`). -/
theorem load_first_eq_separator (m : Store) (a b : List Char) (ha : '=' ∉ a) :
    parseLine (String.mk (a ++ '=' :: b))
      = some (String.mk (trimChars a), String.mk (trimChars b))
    ∧ loadLines m [String.mk (a ++ '=' :: b)]
      = (Except.ok (), storePut m (String.mk (trimChars a)) (String.mk (trimChars b))) := by
  have hp : parseLine (String.mk (a ++ '=' :: b))
      = some (String.mk (trimChars a), String.mk (trimChars b)) := by
    unfold parseLine
    rw [toList_mk, splitFirstEq_append a b ha]
  exact ⟨hp, by simp [loadLines, hp]⟩

theorem load_first_eq_separator_witness :
    parseLine "k=v=w" = some ("k", "v=w")
    ∧ loadLines [] ["k=v=w"] = (Except.ok (), [("k", "v=w")]) := by
  have h := load_first_eq_separator [] ['k'] ['v', '=', 'w'] (by decide)
  exact ⟨h.1, h.2⟩

/-- C5 counterexample: a file consisting of the single character LF yields
one empty line; every non-empty line of that file (vacuously) contains
`=`, yet `Load` fails with `ParseError` — an empty line IS a parse error
in the code, contrary to the claim. -/
theorem load_empty_line_parseError :
    (∀ l ∈ readLines "\n", ¬ l = "" → '=' ∈ l.toList)
    ∧ (Load (FsState.present "\n") []).1 = Except.error SettingsError.parseError :=
  ⟨by decide, rfl⟩

/-- C5 (amended): `Load()` fails with `ParseError` exactly when some line
of the file — empty lines included, since an empty line lacks `=` — has no
`=` separator; for every file in which every line contains `=`, `Load()`
succeeds. -/
theorem load_parseError_iff (content : String) (m : Store) :
    ((Load (FsState.present content) m).1 = Except.error SettingsError.parseError
      ↔ ∃ l ∈ readLines content, '=' ∉ l.toList)
    ∧ ((∀ l ∈ readLines content, '=' ∈ l.toList)
        → ∃ m', Load (FsState.present content) m = (Except.ok (), m')) := by
  rw [load_present]
  exact ⟨loadLines_parseError_iff _ _, loadLines_ok _ _⟩

theorem load_parseError_iff_witness :
    (∀ l ∈ readLines "a=b\nc=d\n", '=' ∈ l.toList)
    ∧ ∃ m', Load (FsState.present "a=b\nc=d\n") [] = (Except.ok (), m') :=
  ⟨by decide, (load_parseError_iff "a=b\nc=d\n" []).2 (by decide)⟩

/-- C6 counterexample: `Load` on a file whose second line lacks `=` fails
with `ParseError`, but the entry parsed from the first line is still
present in the store afterwards — partial data is NOT discarded. -/
theorem load_partial_data_kept :
    Load (FsState.present "a=b\nnope") []
      = (Except.error SettingsError.parseError, [("a", "b")]) := rfl

/-- C6 (amended): when `Load()` fails with `ParseError` on some line, the
partial data already parsed from the lines before the failing line remains
in the store: the store after the failed call is the pre-Load store with
each earlier line's entry inserted in order (the code mutates `ifs.data`
in place and does not restore a snapshot). -/
theorem load_failure_keeps_parsed (m : Store) (content : String)
    (ls : List String) (l : String) (rest : List String)
    (hsplit : readLines content = ls ++ l :: rest)
    (hgood : ∀ x ∈ ls, ¬ parseLine x = none)
    (hbad : parseLine l = none) :
    Load (FsState.present content) m
      = (Except.error SettingsError.parseError, applyParsedLines m ls) := by
  rw [load_present, hsplit]
  clear hsplit
  induction ls generalizing m with
  | nil => simp [loadLines, hbad, applyParsedLines]
  | cons x xs ih =>
    have hx := hgood x (List.mem_cons_self _ _)
    cases hp : parseLine x with
    | none => exact absurd hp hx
    | some kv =>
      obtain ⟨k, v⟩ := kv
      simp only [List.cons_append, loadLines, hp, applyParsedLines, List.foldl_cons]
      exact ih (storePut m k v) (fun y hy => hgood y (List.mem_cons_of_mem _ hy))

theorem load_failure_keeps_parsed_witness :
    Load (FsState.present "a=b\nnope\nc=d") []
      = (Except.error SettingsError.parseError, [("a", "b")]) := by
  have h := load_failure_keeps_parsed [] "a=b\nnope\nc=d" ["a=b"] "nope" ["c=d"]
    (by decide) (by decide) (by decide)
  exact h

/-! ## Reachable-state invariant -/

theorem goodEntry_storePut {m : Store} {k v : String}
    (hm : ∀ p ∈ m, goodEntry p) (hkv : goodEntry (k, v)) :
    ∀ p ∈ storePut m k v, goodEntry p := by
  intro p hp
  unfold storePut at hp
  split at hp
  · obtain ⟨q, hq, hqe⟩ := List.mem_map.mp hp
    by_cases h : (q.1 == k) = true
    · rw [if_pos h] at hqe
      rw [← hqe]
      exact ⟨(hm q hq).1, (hm q hq).2.1, hkv.2.2⟩
    · rw [if_neg h] at hqe
      rw [← hqe]
      exact hm q hq
  · rcases List.mem_append.mp hp with h | h
    · exact hm p h
    · have : p = (k, v) := by simpa using h
      rw [this]
      exact hkv

theorem parseLine_good {l k v : String}
    (hl : '\n' ∉ l.toList) (hp : parseLine l = some (k, v)) :
    goodEntry (k, v) := by
  unfold parseLine at hp
  cases hsp : splitFirstEq l.toList with
  | none => rw [hsp] at hp; cases hp
  | some pr =>
    obtain ⟨pre, post⟩ := pr
    rw [hsp] at hp
    obtain ⟨hpe, hcs⟩ := splitFirstEq_eq_some hsp
    simp only [Option.some.injEq, Prod.mk.injEq] at hp
    obtain ⟨h1, h2⟩ := hp
    rw [← h1, ← h2]
    refine ⟨?_, ?_, ?_⟩
    · intro hx
      have hx2 := trimChars_subset hx
      exact hl (by rw [hcs]; exact List.mem_append_left _ hx2)
    · intro hx
      exact hpe (trimChars_subset hx)
    · intro hx
      have hx2 := trimChars_subset hx
      exact hl (by rw [hcs]; exact List.mem_append_right _ (List.mem_cons_of_mem _ hx2))

theorem loadLines_good :
    ∀ (ls : List String) (m : Store),
      (∀ p ∈ m, goodEntry p) →
      (∀ l ∈ ls, '\n' ∉ l.toList) →
      ∀ p ∈ (loadLines m ls).2, goodEntry p := by
  intro ls
  induction ls with
  | nil => intro m hm _; exact hm
  | cons l rest ih =>
    intro m hm hls
    cases hp : parseLine l with
    | none =>
      simp only [loadLines, hp]
      exact hm
    | some kv =>
      obtain ⟨k, v⟩ := kv
      simp only [loadLines, hp]
      exact ih _
        (goodEntry_storePut hm (parseLine_good (hls l (List.mem_cons_self _ _)) hp))
        (fun x hx => hls x (List.mem_cons_of_mem _ hx))

theorem applyOp_good {m : Store} (op : Op) (hm : ∀ p ∈ m, goodEntry p) :
    ∀ p ∈ applyOp m op, goodEntry p := by
  cases op with
  | get k => exact hm
  | save => exact hm
  | put k v =>
    by_cases hcond : (indexAnyFound k ['=', '\r', '\n'] || indexAnyFound v ['\r', '\n']) = true
    · have herr : Put m k v = Except.error SettingsError.invalidFormat := by
        simp [Put, hcond]
      simpa [applyOp, herr] using hm
    · have hput : Put m k v = Except.ok (storePut m k v) := by
        simp [Put, hcond]
      have hcond2 : indexAnyFound k ['=', '\r', '\n'] = false
          ∧ indexAnyFound v ['\r', '\n'] = false := by
        constructor <;> (cases hk : indexAnyFound k ['=', '\r', '\n'] <;>
          cases hv : indexAnyFound v ['\r', '\n'] <;> simp_all)
      have hgood : goodEntry (k, v) :=
        ⟨not_mem_of_indexAnyFound hcond2.1 (by simp),
         not_mem_of_indexAnyFound hcond2.1 (by simp),
         not_mem_of_indexAnyFound hcond2.2 (by simp)⟩
      simp only [applyOp, hput]
      exact goodEntry_storePut hm hgood
  | load fs =>
    cases fs with
    | absent => exact hm
    | statError => exact hm
    | openError => exact hm
    | present content =>
      exact loadLines_good (readLines content) m hm (fun l hl => (mem_readLines hl).1)

/-- C9 (amended): in every store state reachable from the empty store by
any sequence of `Get`, `Put`, `Load` and `Save` operations, no key and no
value contains a line-feed character and no key contains `=`.  (The
claim's carriage-return part fails: `Load` can introduce an interior CR.) -/
theorem reachable_invariant (ops : List Op) : ∀ p ∈ runOps ops, goodEntry p := by
  have main : ∀ (l : List Op) (m : Store), (∀ p ∈ m, goodEntry p) →
      ∀ p ∈ l.foldl applyOp m, goodEntry p := by
    intro l
    induction l with
    | nil => intro m hm; exact hm
    | cons op rest ih =>
      intro m hm
      rw [List.foldl_cons]
      exact ih _ (applyOp_good op hm)
  exact main ops [] (fun p hp => absurd hp (List.not_mem_nil p))

theorem reachable_invariant_witness : goodEntry ("name", "walk") :=
  reachable_invariant [Op.put "name" "walk"] ("name", "walk") (by decide)

/-- C9 counterexample: loading a file whose single line contains an
interior carriage return (`"a\rb=c"`, a CR not adjacent to an LF, which
`ReadLine` keeps) reaches a store whose key contains CR, refuting the
claimed invariant as stated. -/
theorem reachable_cr_in_key :
    runOps [Op.load (FsState.present "a\rb=c")] = [("a\rb", "c")]
    ∧ '\r' ∈ "a\rb".toList :=
  ⟨rfl, by decide⟩

/-! ## ToolTip claim -/

/-- C10: for every widget argument, `ToolTip.RemoveWidget` panics with
"not implemented" and never returns normally, even though `AddWidget` for
the same tooltip can succeed (whenever the native `TTM_ADDTOOL` message
does not return `FALSE`). -/
theorem removeWidget_panics :
    (∀ w : Widget,
      ToolTip.RemoveWidget w = GoOutcome.panic "not implemented"
      ∧ ∀ r, ¬ ToolTip.RemoveWidget w = GoOutcome.ok r)
    ∧ (∀ w : Widget, ∀ n : Nat, ¬ n = 0 → ToolTip.AddWidget n w = GoOutcome.ok none) := by
  refine ⟨fun w => ⟨rfl, fun r h => ?_⟩, fun w n hn => ?_⟩
  · exact GoOutcome.noConfusion h
  · simp [ToolTip.AddWidget, hn]

theorem removeWidget_panics_witness :
    ToolTip.RemoveWidget ⟨42⟩ = GoOutcome.panic "not implemented"
    ∧ ToolTip.AddWidget 1 ⟨42⟩ = GoOutcome.ok none :=
  ⟨(removeWidget_panics.1 ⟨42⟩).1, removeWidget_panics.2 ⟨42⟩ 1 (by decide)⟩

end Walk
